import Mathlib

/-!
Verification development for the `distributed-python` book repository.

Part I embeds the mpi4py Master-Worker example from the point-to-point
communication chapter (the only executable algorithmic code in the sources):
`size` processes, ranks `0 .. size-2` are workers that seed NumPy's random
generator with their own rank, draw a random length and a random data array,
and send it to the master (rank `size-1`); the master performs `size-1`
blocking receives from any source and reports each message's source and length.

Part II embeds the distributed shuffle-based groupby/aggregation engine that
the specification extracts from the Dask-shuffle chapter (the chapter's three
`groupby` strategy tiers).  That engine is described only in prose, so the
definitions are modelled from the specification's words, as their doc comments
state.
-/

namespace MasterWorker

/-- Deterministic model of NumPy's legacy seeded random generator
(`np.random.seed` / `np.random.randint`).  The real generator is MT19937; the
claims under study depend only on the generator being a deterministic state
machine whose state is fully replaced by `seed`, so the stream is modelled by a
linear congruential generator.  The state is a `Nat` below `2^31`. -/
structure NPRandomState where
  state : Nat
deriving DecidableEq, Repr

/-- Model of `np.random.seed(n)`: the generator state is replaced by a value
computed from the seed alone (the prior state is discarded). -/
def npSeed (n : Nat) : NPRandomState := ⟨n % 2 ^ 31⟩

/-- One step of the modelled generator stream. -/
def lcgNext (s : Nat) : Nat := (s * 1103515245 + 12345) % 2 ^ 31

/-- Model of `np.random.randint(bound)`: one draw in `[0, bound)` plus the
successor state. -/
def npRandint (bound : Nat) (g : NPRandomState) : Nat × NPRandomState :=
  let s := lcgNext g.state
  (s % bound, ⟨s⟩)

/-- Model of `np.random.randint(bound, size=n)`: `n` successive draws. -/
def npRandintArray (bound : Nat) : Nat → NPRandomState → List Nat × NPRandomState
  | 0, g => ([], g)
  | n + 1, g =>
      let (v, g1) := npRandint bound g
      let (vs, g2) := npRandintArray bound n g1
      (v :: vs, g2)

/-- The data array a worker process sends, from the worker branch of the
Master-Worker example: `np.random.seed(rank)`, then
`data_count = np.random.randint(100)`, then
`data = np.random.randint(100, size=data_count)`.  `g0` is the generator state
the process happened to have before `np.random.seed(rank)` ran. -/
def workerData (g0 : NPRandomState) (rank : Nat) : List Nat :=
  let _ := g0
  let g1 := npSeed rank
  let (dataCount, g2) := npRandint 100 g1
  (npRandintArray 100 dataCount g2).1

/-- A point-to-point message: source rank, destination rank, payload. -/
abbrev Msg := Nat × Nat × List Nat

/-- The messages sent in one run of the example with `size` processes: each
worker rank `r < size - 1` executes `comm.send(data, dest=size - 1)` exactly
once. -/
def sentMessages (g0 : NPRandomState) (size : Nat) : List Msg :=
  (List.range (size - 1)).map (fun r => (r, size - 1, workerData g0 r))

/-- What the master prints for each received message:
`status.Get_source()` and `len(data)`. -/
def masterLog (recvd : List Msg) : List (Nat × Nat) :=
  recvd.map (fun m => (m.1, m.2.2.length))

end MasterWorker

namespace Engine

/-- Modelled from the spec: the built-in associative/commutative reductions of
the aggregate path (sum, count, min, max). -/
inductive BuiltinAgg
  | sum
  | count
  | min
  | max
deriving DecidableEq, Repr

/-- Modelled from the spec: the aggregation state contributed by one record's
value (`sum → v`, `count → 1`, `min/max → v`). -/
def aggInit : BuiltinAgg → Int → Int
  | .sum, v => v
  | .count, _ => 1
  | .min, v => v
  | .max, v => v

/-- Modelled from the spec: the merge operation on two aggregation states for
the same key. -/
def aggOp : BuiltinAgg → Int → Int → Int
  | .sum, a, b => a + b
  | .count, a, b => a + b
  | .min, a, b => Min.min a b
  | .max, a, b => Max.max a b

/-- A record, reduced to its grouping key and aggregated value. -/
abbrev Record := Nat × Int

/-- Modelled from the spec: a Partition is an ordered sequence of records,
owned by one worker, immutable once created. -/
abbrev Partition := List Record

/-- Modelled from the spec: a Partial Aggregate is a mapping from Key to an
aggregation state; `none` means the key is absent. -/
abbrev AggMap := Nat → Option Int

/-- Merge two optional aggregation states for one key. -/
def mergeStates (op : BuiltinAgg) : Option Int → Option Int → Option Int
  | none, b => b
  | some s, none => some s
  | some s, some t => some (aggOp op s t)

/-- Fold one record into a partial aggregate. -/
def stepRecord (op : BuiltinAgg) (m : AggMap) (r : Record) : AggMap :=
  fun k => if k = r.1 then mergeStates op (m k) (some (aggInit op r.2)) else m k

/-- Modelled from the spec: the Local Aggregator computes partial per-key
aggregates within a single partition. -/
def localAgg (op : BuiltinAgg) (p : Partition) : AggMap :=
  p.foldl (stepRecord op) (fun _ => none)

/-- Per-key merge of two partial aggregates. -/
def mergeMaps (op : BuiltinAgg) (m1 m2 : AggMap) : AggMap :=
  fun k => mergeStates op (m1 k) (m2 k)

/-- Modelled from the spec: the Global Aggregator combines the partial
aggregates arriving from all sources. -/
def globalAgg (op : BuiltinAgg) (ms : List AggMap) : AggMap :=
  ms.foldl (mergeMaps op) (fun _ => none)

/-- Modelled from the spec: the Partition Assignment function, a
deterministic map Key → destination worker index, `hash(Key) mod
worker_count`. -/
def assign (W k : Nat) : Nat := k % W

/-- The values carried by the records of `p` whose key is `k`. -/
def keyVals (k : Nat) (p : Partition) : List Int :=
  (p.filter (fun r => r.1 == k)).map Prod.snd

/-- Direct aggregation of a list of values (the single-partition reference
semantics used to state partition-count invariance). -/
def aggVals (op : BuiltinAgg) (vs : List Int) : Option Int :=
  (vs.map (fun v => some (aggInit op v))).foldl (mergeStates op) none

/-- Restriction of a partial aggregate to the keys owned by destination `d`:
the bucket a source worker addresses to `d` during the shuffle of partial
aggregates. -/
def mapBucket (W d : Nat) (m : AggMap) : AggMap :=
  fun k => if assign W k = d then m k else none

/-- Modelled from the spec: the aggregate path — Local Aggregator per
partition, then Shuffle Exchanger routes each key's partial states to the
destination `assign W k`, then the Global Aggregator at that destination
merges them.  The final mapping reads each key's result at its owner. -/
def aggregatePath (op : BuiltinAgg) (W : Nat) (parts : List Partition) : AggMap :=
  fun k => globalAgg op ((parts.map (localAgg op)).map (mapBucket W (assign W k))) k

/-- First defined state in a list of optional states. -/
def firstSome : List (Option Int) → Option Int
  | [] => none
  | none :: rest => firstSome rest
  | some s :: _ => some s

/-- Modelled from the spec: the indexed fast path — Local Aggregator per
partition with no shuffle and no cross-partition merge; each partition's local
result is final for the keys it holds. -/
def fastPath (op : BuiltinAgg) (parts : List Partition) : AggMap :=
  fun k => firstSome (parts.map (fun p => localAgg op p k))

/-- Modelled from the spec: the external entry point `group_by_aggregate` on
the aggregate path.  `arrived` is the order in which the partial aggregates
reach the global merge, the one nondeterministic input of a run (bucket
arrival order across sources is unordered). -/
def group_by_aggregate (op : BuiltinAgg) (W : Nat) (arrived : List AggMap) : AggMap :=
  fun k => globalAgg op (arrived.map (mapBucket W (assign W k))) k

/-- Modelled from the spec: the engine's error taxonomy (ConfigurationError,
TransferError, ReductionError). -/
inductive EngineError
  | ConfigurationError
  | TransferError
  | ReductionError
deriving DecidableEq, Repr

/-- The bucket of raw records a source addresses to destination `d`. -/
def bucketFor (W d : Nat) (src : List Record) : List Record :=
  src.filter (fun r => assign W r.1 == d)

/-- Modelled from the spec: what destination `d` holds after the all-to-all
exchange completes — from every source, the bucket addressed to `d`. -/
def shuffleDest (W d : Nat) (sources : List (List Record)) : List Record :=
  (sources.map (bucketFor W d)).flatten

/-- Whether every source-to-destination transfer of the exchange succeeded;
`ok s d` is the fate of the bucket from source `s` to destination `d`. -/
def exchangeComplete (W n : Nat) (ok : Nat → Nat → Bool) : Bool :=
  (List.range n).all (fun s => (List.range W).all (fun d => ok s d))

/-- Modelled from the spec: the Shuffle Exchanger as a collective all-or-nothing
operation.  On success each of the `W` destinations receives one bucket from
every source; if any destination does not receive a bucket from some source the
whole exchange fails with `TransferError` and exposes no output. -/
def shuffleExchange (W : Nat) (sources : List (List Record)) (ok : Nat → Nat → Bool) :
    Except EngineError (List (List (List Record))) :=
  if exchangeComplete W sources.length ok then
    .ok ((List.range W).map (fun d => sources.map (bucketFor W d)))
  else
    .error .TransferError

/-- Modelled from the spec: the per-query stages. -/
inductive Stage
  | INIT
  | LOCAL_AGGREGATE
  | SHUFFLE
  | GLOBAL_AGGREGATE
  | DONE
deriving DecidableEq, Repr

/-- Modelled from the spec: the canonical stage order
INIT → LOCAL_AGGREGATE → SHUFFLE → GLOBAL_AGGREGATE → DONE. -/
def stageOrder : List Stage :=
  [.INIT, .LOCAL_AGGREGATE, .SHUFFLE, .GLOBAL_AGGREGATE, .DONE]

/-- Modelled from the spec: one run of a query on the aggregate path, returning
the trace of stages entered and the outcome.  The SHUFFLE stage blocks on the
full exchange; if the exchange is incomplete the query aborts there with
`TransferError`, no stage is retried, and no result is produced. -/
def runQuery (op : BuiltinAgg) (W : Nat) (parts : List Partition) (ok : Nat → Nat → Bool) :
    List Stage × Except EngineError AggMap :=
  if exchangeComplete W parts.length ok then
    (stageOrder, .ok (aggregatePath op W parts))
  else
    ([.INIT, .LOCAL_AGGREGATE, .SHUFFLE], .error .TransferError)

/-- Modelled from the spec: a Query Plan's features as seen by the Coordinator —
whether the grouping columns define the current partition key, whether the
partitions are sorted by it, whether the reduction is a built-in
associative/commutative aggregate, and whether the grouping columns resolve
against the schema. -/
structure QueryPlan where
  groupingIsPartitionKey : Bool
  sortedByKey : Bool
  builtinReduction : Bool
  columnsResolvable : Bool
deriving DecidableEq, Repr

/-- Modelled from the spec: the three execution strategies. -/
inductive Strategy
  | fastPath
  | aggregatePath
  | arbitraryPath
deriving DecidableEq, Repr

/-- Modelled from the spec: the Coordinator's strategy selection, following the
chapter's `groupby` tiers (both `groupby(indexed_columns).agg()` and
`groupby(indexed_columns).apply(user_def_fn)` are the no-shuffle tier): an
unresolvable grouping column is a `ConfigurationError`; otherwise the indexed
fast path whenever the grouping columns define the partition key and the
partitions are sorted by it; otherwise the aggregate path for a built-in
reduction; otherwise the arbitrary-function path. -/
def coordinate (q : QueryPlan) : Except EngineError Strategy :=
  if !q.columnsResolvable then .error .ConfigurationError
  else if q.groupingIsPartitionKey && q.sortedByKey then .ok .fastPath
  else if q.builtinReduction then .ok .aggregatePath
  else .ok .arbitraryPath

end Engine

namespace Engine

theorem aggOp_assoc (op : BuiltinAgg) (a b c : Int) :
    aggOp op (aggOp op a b) c = aggOp op a (aggOp op b c) := by
  cases op <;> simp [aggOp, Int.add_assoc, min_assoc, max_assoc]

theorem aggOp_comm (op : BuiltinAgg) (a b : Int) :
    aggOp op a b = aggOp op b a := by
  cases op <;> simp [aggOp, Int.add_comm, min_comm, max_comm]

theorem mergeStates_none_left (op : BuiltinAgg) (a : Option Int) :
    mergeStates op none a = a := rfl

theorem mergeStates_none_right (op : BuiltinAgg) (a : Option Int) :
    mergeStates op a none = a := by
  cases a <;> rfl

theorem mergeStates_assoc (op : BuiltinAgg) (a b c : Option Int) :
    mergeStates op (mergeStates op a b) c = mergeStates op a (mergeStates op b c) := by
  cases a <;> cases b <;> cases c <;> simp [mergeStates, aggOp_assoc]

theorem mergeStates_comm (op : BuiltinAgg) (a b : Option Int) :
    mergeStates op a b = mergeStates op b a := by
  cases a <;> cases b <;> simp [mergeStates, aggOp_comm]

theorem mergeStates_right_comm (op : BuiltinAgg) (a b c : Option Int) :
    mergeStates op (mergeStates op a b) c = mergeStates op (mergeStates op a c) b := by
  rw [mergeStates_assoc, mergeStates_assoc, mergeStates_comm op b c]

theorem foldl_mergeStates_perm (op : BuiltinAgg) {l1 l2 : List (Option Int)}
    (h : l1.Perm l2) : ∀ a, l1.foldl (mergeStates op) a = l2.foldl (mergeStates op) a := by
  induction h with
  | nil => intro a; rfl
  | cons x _ ih => intro a; simp only [List.foldl_cons]; exact ih _
  | swap x y l =>
      intro a
      simp only [List.foldl_cons]
      rw [mergeStates_right_comm]
  | trans _ _ ih1 ih2 => intro a; rw [ih1, ih2]

theorem foldl_mergeStates_shift (op : BuiltinAgg) (l : List (Option Int)) :
    ∀ a, l.foldl (mergeStates op) a = mergeStates op a (l.foldl (mergeStates op) none) := by
  induction l with
  | nil => intro a; exact (mergeStates_none_right op a).symm
  | cons b l ih =>
      intro a
      simp only [List.foldl_cons, mergeStates_none_left]
      rw [ih (mergeStates op a b), ih b, mergeStates_assoc]

theorem foldl_mergeStates_cons (op : BuiltinAgg) (x : Option Int) (l : List (Option Int)) :
    (x :: l).foldl (mergeStates op) none = mergeStates op x (l.foldl (mergeStates op) none) := by
  simp only [List.foldl_cons, mergeStates_none_left]
  exact foldl_mergeStates_shift op l x

theorem keyVals_cons (k : Nat) (r : Record) (p : Partition) :
    keyVals k (r :: p) = if r.1 == k then r.2 :: keyVals k p else keyVals k p := by
  simp only [keyVals, List.filter_cons]
  by_cases h : r.1 == k <;> simp [h]

theorem keyVals_append (k : Nat) (p q : Partition) :
    keyVals k (p ++ q) = keyVals k p ++ keyVals k q := by
  simp [keyVals, List.filter_append]

theorem foldl_stepRecord_apply (op : BuiltinAgg) (p : Partition) :
    ∀ (m : AggMap) (k : Nat),
      (p.foldl (stepRecord op) m) k
        = ((keyVals k p).map (fun v => some (aggInit op v))).foldl (mergeStates op) (m k) := by
  induction p with
  | nil => intro m k; rfl
  | cons r p ih =>
      intro m k
      simp only [List.foldl_cons, keyVals_cons]
      rw [ih]
      by_cases h : r.1 == k
      · have hk : k = r.1 := (eq_of_beq h).symm
        simp only [h, if_pos, List.map_cons, List.foldl_cons]
        congr 1
        simp [stepRecord, hk]
      · have hk : ¬ k = r.1 := fun hkk => h (by simp [hkk])
        simp only [h, if_neg, Bool.false_eq_true, not_false_iff]
        congr 1
        simp [stepRecord, hk]

theorem localAgg_apply (op : BuiltinAgg) (p : Partition) (k : Nat) :
    localAgg op p k = aggVals op (keyVals k p) := by
  unfold localAgg aggVals
  rw [foldl_stepRecord_apply]

theorem aggVals_append (op : BuiltinAgg) (xs ys : List Int) :
    aggVals op (xs ++ ys) = mergeStates op (aggVals op xs) (aggVals op ys) := by
  unfold aggVals
  rw [List.map_append, List.foldl_append, foldl_mergeStates_shift]

theorem aggVals_perm (op : BuiltinAgg) {vs1 vs2 : List Int} (h : vs1.Perm vs2) :
    aggVals op vs1 = aggVals op vs2 :=
  foldl_mergeStates_perm op (h.map _) none

theorem foldl_mergeMaps_apply (op : BuiltinAgg) (ms : List AggMap) :
    ∀ (a : AggMap) (k : Nat),
      (ms.foldl (mergeMaps op) a) k
        = (ms.map (fun m => m k)).foldl (mergeStates op) (a k) := by
  induction ms with
  | nil => intro a k; rfl
  | cons m ms ih =>
      intro a k
      simp only [List.foldl_cons, List.map_cons]
      rw [ih]
      rfl

theorem globalAgg_apply (op : BuiltinAgg) (ms : List AggMap) (k : Nat) :
    globalAgg op ms k = (ms.map (fun m => m k)).foldl (mergeStates op) none := by
  unfold globalAgg
  rw [foldl_mergeMaps_apply]

theorem aggregatePath_apply (op : BuiltinAgg) (W : Nat) (parts : List Partition) (k : Nat) :
    aggregatePath op W parts k = globalAgg op (parts.map (localAgg op)) k := by
  unfold aggregatePath
  rw [globalAgg_apply, globalAgg_apply, List.map_map]
  congr 1
  apply List.map_congr_left
  intro m _
  simp [mapBucket]

theorem globalAgg_map_localAgg (op : BuiltinAgg) (parts : List Partition) (k : Nat) :
    globalAgg op (parts.map (localAgg op)) k = aggVals op (keyVals k parts.flatten) := by
  induction parts with
  | nil => rfl
  | cons p ps ih =>
      rw [List.map_cons, globalAgg_apply, List.map_cons, foldl_mergeStates_cons,
        ← globalAgg_apply op (List.map (localAgg op) ps) k, ih, localAgg_apply,
        List.flatten_cons, keyVals_append, aggVals_append]

end Engine

namespace Engine

/-- C2: Partition-count invariance — for every input dataset, every way of
splitting it into partitions, and every built-in associative/commutative
reduction, the aggregate path (local aggregation per partition, shuffle of
partial aggregates, global merge) yields a final key-to-result mapping equal
to aggregating the entire dataset as a single partition. -/
theorem partition_count_invariance (op : BuiltinAgg) (W : Nat) (hW : 1 ≤ W)
    (parts : List Partition) (dataset : Partition)
    (h : parts.flatten.Perm dataset) :
    aggregatePath op W parts = localAgg op dataset := by
  funext k
  rw [aggregatePath_apply, globalAgg_map_localAgg, localAgg_apply]
  exact aggVals_perm op ((h.filter _).map _)

/-- Witness for C2 at a concrete split of a concrete dataset. -/
theorem partition_count_invariance_witness :
    1 ≤ 2
    ∧ ([[((0 : Nat), (1 : Int)), (1, 2)], [(0, 3)]] : List Partition).flatten.Perm
        [(0, 3), (0, 1), (1, 2)]
    ∧ aggregatePath .sum 2 [[(0, 1), (1, 2)], [(0, 3)]] = localAgg .sum [(0, 3), (0, 1), (1, 2)] :=
  ⟨by decide, by decide,
    partition_count_invariance .sum 2 (by decide) [[(0, 1), (1, 2)], [(0, 3)]]
      [(0, 3), (0, 1), (1, 2)] (by decide)⟩

/-- C3: No-key-splitting shuffle invariant — after a shuffle completes, the
items bearing key `k` are found at destination `d` exactly when `d` is the
destination the deterministic Partition Assignment gives `k` and some input
record bears `k`; hence every record with key `k` resides on exactly one
destination worker. -/
theorem no_key_splitting (W : Nat) (sources : List (List Record)) (k d : Nat) :
    (∃ r ∈ shuffleDest W d sources, r.1 = k) ↔
      (d = assign W k ∧ ∃ r ∈ sources.flatten, r.1 = k) := by
  unfold shuffleDest bucketFor
  constructor
  · rintro ⟨r, hr, rfl⟩
    simp only [List.mem_flatten, List.mem_map] at hr
    obtain ⟨b, ⟨src, hsrc, rfl⟩, hrb⟩ := hr
    have hmem := List.mem_filter.mp hrb
    exact ⟨(eq_of_beq hmem.2).symm, r, List.mem_flatten.mpr ⟨src, hsrc, hmem.1⟩, rfl⟩
  · rintro ⟨hd, r, hr, rfl⟩
    refine ⟨r, ?_, rfl⟩
    simp only [List.mem_flatten, List.mem_map] at hr ⊢
    obtain ⟨src, hsrc, hrs⟩ := hr
    exact ⟨_, ⟨src, hsrc, rfl⟩, List.mem_filter.mpr ⟨hrs, by simp [hd]⟩⟩

/-- C7: Re-run determinism — two executions of `group_by_aggregate` on the same
immutable input partitions produce identical final results, whatever order the
partial aggregates happen to arrive in on each run. -/
theorem rerun_deterministic (op : BuiltinAgg) (W : Nat) (parts : List Partition)
    (arr1 arr2 : List AggMap)
    (h1 : arr1.Perm (parts.map (localAgg op)))
    (h2 : arr2.Perm (parts.map (localAgg op))) :
    group_by_aggregate op W arr1 = group_by_aggregate op W arr2 := by
  funext k
  unfold group_by_aggregate
  rw [globalAgg_apply, globalAgg_apply]
  exact foldl_mergeStates_perm op ((((h1.trans h2.symm).map _).map _)) none

/-- Witness for C7: a run in canonical order and a run in reversed arrival
order agree on a concrete input. -/
theorem rerun_deterministic_witness :
    group_by_aggregate .sum 2 (([[((0 : Nat), (1 : Int))], [(1, 2)]] : List Partition).map (localAgg .sum))
      = group_by_aggregate .sum 2 (([[((0 : Nat), (1 : Int))], [(1, 2)]] : List Partition).map (localAgg .sum)).reverse :=
  rerun_deterministic .sum 2 [[(0, 1)], [(1, 2)]] _ _ (List.Perm.refl _) (List.reverse_perm _)

end Engine

namespace Engine

theorem aggVals_nil (op : BuiltinAgg) : aggVals op [] = none := rfl

theorem exists_of_keyVals_ne_nil {k : Nat} {p : Partition} (h : keyVals k p ≠ []) :
    ∃ r ∈ p, r.1 = k := by
  unfold keyVals at h
  have hf : p.filter (fun r => r.1 == k) ≠ [] := fun hnil => h (by rw [hnil]; rfl)
  obtain ⟨r, hr⟩ := List.exists_mem_of_ne_nil _ hf
  exact ⟨r, (List.mem_filter.mp hr).1, eq_of_beq (List.mem_filter.mp hr).2⟩

theorem foldl_merge_all_none (op : BuiltinAgg) (s : Int) :
    ∀ rest : List (Option Int), (∀ b ∈ rest, b = none) →
      rest.foldl (mergeStates op) (some s) = some s := by
  intro rest
  induction rest with
  | nil => intro _; rfl
  | cons b rest ih =>
      intro h
      have hb : b = none := h b (List.mem_cons_self _ _)
      subst hb
      simp only [List.foldl_cons, mergeStates_none_right]
      exact ih (fun c hc => h c (List.mem_cons_of_mem _ hc))

theorem foldl_merge_of_disjoint (op : BuiltinAgg) :
    ∀ l : List (Option Int), (l.Pairwise fun a b => a = none ∨ b = none) →
      l.foldl (mergeStates op) none = firstSome l := by
  intro l hl
  induction l with
  | nil => rfl
  | cons a l ih =>
      rw [List.pairwise_cons] at hl
      cases a with
      | none =>
          simp only [List.foldl_cons, mergeStates_none_left, firstSome]
          exact ih hl.2
      | some s =>
          have hall : ∀ b ∈ l, b = none :=
            fun b hb => (hl.1 b hb).resolve_left (by simp)
          simp only [List.foldl_cons, mergeStates_none_left, firstSome]
          exact foldl_merge_all_none op s l hall

/-- C8: Fast-path equivalence — when the grouping columns equal the existing
partition key (each key's records confined to one partition) and partitions are
pre-sorted by it, the indexed fast path and the general aggregate path (run on
the same data with the partitioning metadata ignored) yield identical final
results. -/
theorem fast_path_equivalence (op : BuiltinAgg) (W : Nat) (hW : 1 ≤ W)
    (parts : List Partition)
    (hdisj : parts.Pairwise fun p q => ∀ r ∈ p, ∀ r2 ∈ q, r.1 ≠ r2.1)
    (hsorted : ∀ p ∈ parts, p.Pairwise fun a b => a.1 ≤ b.1) :
    fastPath op parts = aggregatePath op W parts := by
  funext k
  rw [aggregatePath_apply, globalAgg_apply, List.map_map]
  unfold fastPath
  have hmap : ((fun m : AggMap => m k) ∘ localAgg op) = fun p => localAgg op p k := rfl
  rw [hmap]
  have hpw : (parts.map fun p => localAgg op p k).Pairwise fun a b => a = none ∨ b = none := by
    refine List.Pairwise.map _ ?_ hdisj
    intro p q hpq
    by_cases h1 : keyVals k p = []
    · left; rw [localAgg_apply, h1, aggVals_nil]
    · right
      obtain ⟨r, hrp, hrk⟩ := exists_of_keyVals_ne_nil h1
      have h2 : keyVals k q = [] := by
        by_contra h2
        obtain ⟨r2, hrq, hr2k⟩ := exists_of_keyVals_ne_nil h2
        exact hpq r hrp r2 hrq (hrk.trans hr2k.symm)
      rw [localAgg_apply, h2, aggVals_nil]
  exact (foldl_merge_of_disjoint op _ hpw).symm

/-- Witness for C8 on a concrete key-partitioned, key-sorted input. -/
theorem fast_path_equivalence_witness :
    1 ≤ 2
    ∧ (([[((0 : Nat), (1 : Int)), (0, 2)], [(1, 5)]] : List Partition).Pairwise
        fun p q => ∀ r ∈ p, ∀ r2 ∈ q, r.1 ≠ r2.1)
    ∧ (∀ p ∈ ([[((0 : Nat), (1 : Int)), (0, 2)], [(1, 5)]] : List Partition),
        p.Pairwise fun a b => a.1 ≤ b.1)
    ∧ fastPath .sum [[(0, 1), (0, 2)], [(1, 5)]]
        = aggregatePath .sum 2 [[(0, 1), (0, 2)], [(1, 5)]] :=
  ⟨by decide, by decide, by decide,
    fast_path_equivalence .sum 2 (by decide) [[(0, 1), (0, 2)], [(1, 5)]]
      (by decide) (by decide)⟩

end Engine

namespace Engine

theorem count_bucketFor (W d : Nat) (src : List Record) (r : Record) :
    (bucketFor W d src).count r = if assign W r.1 = d then src.count r else 0 := by
  unfold bucketFor
  by_cases h : assign W r.1 = d
  · rw [if_pos h]
    exact List.count_filter (by simp [h])
  · rw [if_neg h]
    refine List.count_eq_zero.mpr (fun hmem => h ?_)
    have hp := List.of_mem_filter hmem
    exact eq_of_beq hp

theorem count_shuffleDest (W d : Nat) (sources : List (List Record)) (r : Record) :
    (shuffleDest W d sources).count r
      = if assign W r.1 = d then sources.flatten.count r else 0 := by
  unfold shuffleDest
  rw [List.count_flatten, List.map_map]
  by_cases h : assign W r.1 = d
  · rw [if_pos h, List.count_flatten]
    congr 1
    apply List.map_congr_left
    intro src _
    simp only [Function.comp_apply, count_bucketFor, if_pos h]
  · rw [if_neg h]
    apply List.sum_eq_zero
    intro x hx
    simp only [List.mem_map, Function.comp_apply] at hx
    obtain ⟨src, _, rfl⟩ := hx
    rw [count_bucketFor, if_neg h]

theorem sum_map_range_single (t : Nat) :
    ∀ n d0 : Nat, d0 < n →
      ((List.range n).map fun d => if d0 = d then t else 0).sum = t := by
  intro n
  induction n with
  | zero => intro d0 h; omega
  | succ n ih =>
      intro d0 h
      rw [List.range_succ, List.map_append, List.sum_append]
      by_cases hd : d0 = n
      · subst hd
        have hzero : ((List.range d0).map fun d => if d0 = d then t else 0).sum = 0 := by
          apply List.sum_eq_zero
          intro x hx
          simp only [List.mem_map, List.mem_range] at hx
          obtain ⟨d, hdr, rfl⟩ := hx
          rw [if_neg (by omega)]
        simp [hzero]
      · have hlt : d0 < n := by omega
        rw [ih d0 hlt]
        simp [hd]

/-- C5: Shuffle completeness and failure atomicity — when every
source-to-destination transfer succeeds the exchange returns the complete
all-to-all result: `W` destinations, each holding one bucket from every
source, with every record delivered exactly once (multiplicities preserved);
if any destination does not receive a bucket from some source the shuffle
fails with `TransferError` and exposes no output, so the query sees no
partial results. -/
theorem shuffle_exact_once_and_atomic (W : Nat) (hW : 1 ≤ W)
    (sources : List (List Record)) (ok : Nat → Nat → Bool) :
    (exchangeComplete W sources.length ok = true →
      ∃ dests, shuffleExchange W sources ok = .ok dests
        ∧ dests.length = W
        ∧ (∀ db ∈ dests, db.length = sources.length)
        ∧ ∀ r : Record, ((dests.map List.flatten).flatten).count r = sources.flatten.count r)
    ∧ ((∃ s < sources.length, ∃ d < W, ok s d = false) →
        shuffleExchange W sources ok = .error .TransferError) := by
  constructor
  · intro hC
    refine ⟨(List.range W).map (fun d => sources.map (bucketFor W d)), ?_, ?_, ?_, ?_⟩
    · simp [shuffleExchange, hC]
    · simp
    · intro db hdb
      simp only [List.mem_map] at hdb
      obtain ⟨d, _, rfl⟩ := hdb
      simp
    · intro r
      rw [List.map_map, List.count_flatten, List.map_map]
      have hmap :
          ((List.range W).map (List.count r ∘ List.flatten ∘ fun d => sources.map (bucketFor W d)))
            = (List.range W).map fun d => if assign W r.1 = d then sources.flatten.count r else 0 := by
        apply List.map_congr_left
        intro d _
        have : (shuffleDest W d sources).count r
            = if assign W r.1 = d then sources.flatten.count r else 0 := count_shuffleDest W d sources r
        exact this
      rw [hmap]
      exact sum_map_range_single _ W (assign W r.1) (Nat.mod_lt _ (by omega))
  · rintro ⟨s, hs, d, hd, hfalse⟩
    have hC : exchangeComplete W sources.length ok = false := by
      by_contra h
      rw [Bool.not_eq_false] at h
      have hall := h
      simp only [exchangeComplete, List.all_eq_true, List.mem_range] at hall
      have := hall s hs d hd
      rw [this] at hfalse
      exact Bool.noConfusion hfalse
    simp [shuffleExchange, hC]

/-- Witness for C5: a concrete failed transfer aborts the whole exchange with
`TransferError`. -/
theorem shuffle_exact_once_and_atomic_witness :
    shuffleExchange 2 [[((0 : Nat), (1 : Int))]] (fun _ _ => false)
      = .error .TransferError :=
  (shuffle_exact_once_and_atomic 2 (by decide) [[(0, 1)]] (fun _ _ => false)).2
    ⟨0, by decide, 0, by decide, rfl⟩

end Engine

namespace Engine

/-- C6: Query stage ordering and fail-fast — every run's stage trace is a
prefix of INIT → LOCAL_AGGREGATE → SHUFFLE → GLOBAL_AGGREGATE → DONE with no
stage repeated; either the query reaches DONE with a result, or it stops at the
SHUFFLE stage (blocking on the full exchange) and aborts with `TransferError`
and no result, so the caller never receives partial results. -/
theorem query_stage_ordering (op : BuiltinAgg) (W : Nat) (parts : List Partition)
    (ok : Nat → Nat → Bool) :
    (runQuery op W parts ok).1.Nodup
    ∧ (runQuery op W parts ok = (stageOrder, .ok (aggregatePath op W parts))
        ∨ runQuery op W parts ok = (stageOrder.take 3, .error .TransferError)) := by
  by_cases h : exchangeComplete W parts.length ok = true
  · refine ⟨?_, Or.inl ?_⟩ <;> simp [runQuery, h, stageOrder]
  · rw [Bool.not_eq_true] at h
    refine ⟨?_, Or.inr ?_⟩ <;> simp [runQuery, h, stageOrder]

/-- C4 counterexample: a plan whose grouping columns define the sorted
partition key but whose reduction is a user-supplied function is sent down the
indexed fast path (the chapter's `groupby(indexed_columns).apply(user_def_fn)`
tier), so the claim's "arbitrary-function path exactly when the reduction is
user-supplied" biconditional fails at this plan. -/
theorem coordinator_claim_counterexample :
    coordinate ⟨true, true, false, true⟩ = .ok .fastPath
    ∧ ¬(coordinate ⟨true, true, false, true⟩ = .ok .arbitraryPath
          ↔ (⟨true, true, false, true⟩ : QueryPlan).builtinReduction = false) := by
  constructor
  · rfl
  · intro hiff
    have h := hiff.mpr rfl
    simp [coordinate] at h

/-- C4 (amended): given a resolvable plan, the Coordinator selects the indexed
fast path exactly when the grouping columns define the partition key and
partitions are sorted by it; the aggregate path exactly when that is not the
case and the reduction is a built-in associative/commutative aggregate; and
the arbitrary-function path exactly when that is not the case and the
reduction is a user-supplied non-decomposable function. -/
theorem coordinator_strategy_selection (q : QueryPlan)
    (hres : q.columnsResolvable = true) :
    (coordinate q = .ok .fastPath ↔ (q.groupingIsPartitionKey && q.sortedByKey) = true)
    ∧ (coordinate q = .ok .aggregatePath
        ↔ ((q.groupingIsPartitionKey && q.sortedByKey) = false ∧ q.builtinReduction = true))
    ∧ (coordinate q = .ok .arbitraryPath
        ↔ ((q.groupingIsPartitionKey && q.sortedByKey) = false ∧ q.builtinReduction = false)) := by
  obtain ⟨a, b, c, d⟩ := q
  simp only at hres
  subst hres
  cases a <;> cases b <;> cases c <;> simp [coordinate]

/-- Witness for C4 (amended) at a concrete unkeyed built-in-reduction plan. -/
theorem coordinator_strategy_selection_witness :
    (⟨false, false, true, true⟩ : QueryPlan).columnsResolvable = true
    ∧ (coordinate ⟨false, false, true, true⟩ = .ok .aggregatePath
        ↔ (((⟨false, false, true, true⟩ : QueryPlan).groupingIsPartitionKey
              && (⟨false, false, true, true⟩ : QueryPlan).sortedByKey) = false
            ∧ (⟨false, false, true, true⟩ : QueryPlan).builtinReduction = true)) :=
  ⟨rfl, (coordinator_strategy_selection ⟨false, false, true, true⟩ rfl).2.1⟩

end Engine

namespace MasterWorker

theorem perm_count_msg {l1 l2 : List Msg} (h : l1.Perm l2) (a : Msg) :
    l1.count a = l2.count a := by
  rw [List.count_eq_countP, List.count_eq_countP]
  exact h.countP_eq _

theorem count_map_range_of_injective (f : Nat → Msg) (hinj : ∀ x y, f x = f y → x = y) :
    ∀ n r, r < n → ((List.range n).map f).count (f r) = 1 := by
  intro n
  induction n with
  | zero => intro r hr; omega
  | succ n ih =>
      intro r hr
      rw [List.range_succ, List.map_append, List.count_append]
      by_cases hrn : r = n
      · subst hrn
        have h0 : ((List.range r).map f).count (f r) = 0 := by
          rw [List.count_eq_zero]
          intro hmem
          simp only [List.mem_map, List.mem_range] at hmem
          obtain ⟨x, hx, hfx⟩ := hmem
          exact absurd (hinj x r hfx) (by omega)
        rw [h0]
        simp [List.count_singleton]
      · have hlt : r < n := by omega
        rw [ih r hlt]
        have h1 : (([n] : List Nat).map f).count (f r) = 0 := by
          rw [List.count_eq_zero]
          intro hmem
          simp only [List.map_cons, List.map_nil, List.mem_cons, List.not_mem_nil,
            or_false] at hmem
          exact hrn (hinj r n hmem)
        rw [h1]

/-- C9: In the MPI Master-Worker example with `size ≥ 2` processes, each of the
`size-1` workers sends exactly one message, addressed to rank `size-1`; the
master's `size-1` receives (in whatever order the messages arrive) deliver
every sent message exactly once, and the length the master reports for each
received message equals the length of the array that worker generated. -/
theorem master_worker_exact_once (g0 : NPRandomState) (size : Nat) (h2 : 2 ≤ size)
    (recvd : List Msg) (hperm : recvd.Perm (sentMessages g0 size)) :
    recvd.length = size - 1
    ∧ (∀ m ∈ recvd, m.2.1 = size - 1)
    ∧ (∀ r, r < size - 1 → recvd.count (r, size - 1, workerData g0 r) = 1)
    ∧ (∀ m ∈ recvd, m.2.2 = workerData g0 m.1)
    ∧ masterLog recvd = recvd.map (fun m => (m.1, (workerData g0 m.1).length)) := by
  have hform : ∀ m ∈ recvd, ∃ r, r < size - 1 ∧ m = (r, size - 1, workerData g0 r) := by
    intro m hm
    have hms := hperm.subset hm
    simp only [sentMessages, List.mem_map, List.mem_range] at hms
    obtain ⟨r, hr, rfl⟩ := hms
    exact ⟨r, hr, rfl⟩
  refine ⟨?_, ?_, ?_, ?_, ?_⟩
  · rw [hperm.length_eq]
    simp [sentMessages]
  · intro m hm
    obtain ⟨r, _, rfl⟩ := hform m hm
    rfl
  · intro r hr
    rw [perm_count_msg hperm]
    unfold sentMessages
    exact count_map_range_of_injective (fun r => (r, size - 1, workerData g0 r))
      (fun x y hxy => by simpa using congrArg (fun m : Msg => m.1) hxy) _ r hr
  · intro m hm
    obtain ⟨r, _, rfl⟩ := hform m hm
    dsimp only
  · unfold masterLog
    apply List.map_congr_left
    intro m hm
    obtain ⟨r, _, rfl⟩ := hform m hm
    dsimp only

/-- Witness for C9 with three processes and a reversed arrival order. -/
theorem master_worker_exact_once_witness :
    2 ≤ 3
    ∧ (sentMessages ⟨0⟩ 3).reverse.Perm (sentMessages ⟨0⟩ 3)
    ∧ (sentMessages ⟨0⟩ 3).reverse.length = 3 - 1 :=
  ⟨by decide, List.reverse_perm _,
    (master_worker_exact_once ⟨0⟩ 3 (by decide) _ (List.reverse_perm _)).1⟩

/-- C10: Each worker seeds the random generator with its own rank before
generating data, so the data array a worker sends is a deterministic function
of its rank alone — whatever generator state the process had before seeding —
and two runs with the same process count produce identical messages from every
worker. -/
theorem worker_message_deterministic (g g2 : NPRandomState) (size rank : Nat) :
    workerData g rank = workerData g2 rank
    ∧ sentMessages g size = sentMessages g2 size :=
  ⟨rfl, rfl⟩

end MasterWorker
